import Mathlib

/-!
Shallow embedding of the two engines of the `e-p-talents` repository
(`talents.py` and `training.py`) and verification of the spec claims.

Python exceptions are modelled as `Option`/`Except` failures; the global
random generator of `training.py` is modelled as an explicit stream
`rand : Nat → Nat` of draws (one per `random.randrange(100)` call), consumed
sequentially across runs exactly as the Python process does.
-/

namespace Talents

/-- The `Step` enum of `talents.py` (the closed set of stat kinds). -/
inductive Step where
  | talent
  | attack
  | defense
  | health
  | heal
  | critical
  | mana
deriving DecidableEq, Repr

/-- Model of `TalentCounter`: a dict holding exactly the `Step` keys, each mapped to a
count.  Modelled as a total function on the closed enumeration, which makes the
"no keys outside the closed Stat Kind set" invariant hold by construction. -/
def TalentCounter : Type := Step → Nat

/-- Model of `TalentCounter.__init__`: every stat kind starts at 0. -/
def tcZero : TalentCounter := fun _ => 0

/-- Model of `TalentCounter.add` with a `Step` argument: `self[rhs] += 1`. -/
def addStep (t : TalentCounter) (s : Step) : TalentCounter :=
  fun k => if k = s then t k + 1 else t k

/-- Model of `TalentCounter.add` with a `TalentCounter` argument:
`for k, v in rhs.items(): self[k] += v`. -/
def addCounter (t rhs : TalentCounter) : TalentCounter :=
  fun k => t k + rhs k

/-- Model of `ClassTalents`: a name, a base counter (`self.count`) and the list of
splits (`self.branches`), each split a list of alternative counters. -/
structure ClassTalents where
  name : String
  count : TalentCounter
  branches : List (List TalentCounter)

/-- The loop of `ClassTalents.count_path`:
`for split, where in zip(self.branches, path): result.add(split[int(where)])`.
An out-of-range index (Python `IndexError`) yields `none`. -/
def count_path_go (result : TalentCounter) :
    List (List TalentCounter × Nat) → Option TalentCounter
  | [] => some result
  | (split, w) :: rest =>
    match split.get? w with
    | none => none
    | some alt => count_path_go (addCounter result alt) rest

/-- Model of `ClassTalents.count_path`: raises (`none`) when `len(path) != len(self.branches)`,
otherwise accumulates `self.count` plus the selected alternative of each split. -/
def count_path (cls : ClassTalents) (path : List Nat) : Option TalentCounter :=
  if path.length ≠ cls.branches.length then none
  else count_path_go (addCounter tcZero cls.count) (cls.branches.zip path)

/-- Model of `Goal = namedtuple("Goal", "cls, priorities")`. -/
structure Goal where
  cls : ClassTalents
  priorities : List Step

/-- The `step_map` dict of `talents.py`, as a partial lookup. -/
def step_map (c : Char) : Option Step :=
  if c = 'a' then some Step.attack
  else if c = 'c' then some Step.critical
  else if c = 'd' then some Step.defense
  else if c = 'h' then some Step.health
  else if c = 'l' then some Step.heal
  else if c = 'm' then some Step.mana
  else if c = 't' then some Step.talent
  else none

/-- The error taxonomy of the spec for the talent engine.  In the Python code
both conditions surface as `KeyError`, raised by the `step_map[p]` lookup and
by the `data.classes[n]` lookup respectively; the spec names them
`InvalidPriorityError` and `UnknownEntityError`, and the two constructors
record which lookup failed. -/
inductive TalentError where
  | invalidPriority : Char → TalentError
  | unknownEntity : String → TalentError
deriving DecidableEq, Repr

/-- Model of `parse_priorities`: `[step_map[p] for p in string]`; the first unknown
code character raises (`KeyError` in Python, `invalidPriority` here). -/
def parse_priorities : List Char → Except TalentError (List Step)
  | [] => Except.ok []
  | c :: rest =>
    match step_map c with
    | none => Except.error (TalentError.invalidPriority c)
    | some s => (parse_priorities rest).map (fun l => s :: l)

/-- The goal-construction loop of `main` (lines 147-150):
`Goal(data.classes[n], parse_priorities(p))` for each name/priority pair.
`data.classes` is modelled as an association list; a missing entity name
raises (`KeyError` in Python, `unknownEntity` here). -/
def makeGoals (classes : List (String × ClassTalents)) :
    List (String × List Char) → Except TalentError (List Goal)
  | [] => Except.ok []
  | (n, p) :: rest =>
    match classes.lookup n with
    | none => Except.error (TalentError.unknownEntity n)
    | some cls =>
      match parse_priorities p with
      | Except.error e => Except.error e
      | Except.ok ps => (makeGoals classes rest).map (fun gs => ⟨cls, ps⟩ :: gs)

/-- The stat value used by the filter in `main`:
`results[path][g.cls.name][prio]`.  Since every goal's class is obtained from
the name-keyed dict `data.classes`, `results[path][g.cls.name]` is always
`g.cls.count_path(path)`; the `none` branch corresponds to a run in which
`main` would already have raised while building `results`. -/
def pathStat (cls : ClassTalents) (prio : Step) (path : List Nat) : Nat :=
  match count_path cls path with
  | some tc => tc prio
  | none => 0

/-- One iteration of the inner elimination loop of `main` (lines 165-171),
acting on the state `(new_paths, current_max)`. -/
def roundStep (vals : List Nat → Nat) (st : List (List Nat) × Nat) (p : List Nat) :
    List (List Nat) × Nat :=
  let v := vals p
  if v > st.2 then ([p], v)
  else if v = st.2 then (st.1 ++ [p], st.2)
  else st

/-- One elimination round of `main`: starting from `new_paths = []` and
`current_max = 0`, scan the current path list and keep the maximal ones. -/
def filterRound (vals : List Nat → Nat) (paths : List (List Nat)) : List (List Nat) :=
  (paths.foldl (roundStep vals) ([], 0)).1

/-- The `for g in goals` loop at a fixed priority index (lines 158-172):
goals whose priority list is too short are skipped (`except IndexError: continue`). -/
def goalRound (goals : List Goal) (idx : Nat) (paths : List (List Nat)) :
    List (List Nat) :=
  goals.foldl
    (fun ps g =>
      match g.priorities.get? idx with
      | none => ps
      | some prio => filterRound (pathStat g.cls prio) ps)
    paths

/-- Model of `max(len(g.priorities) for g in goals)`, as the fold it equals for a
non-empty goal list (for an empty list Python raises instead). -/
def maxPrioLen (goals : List Goal) : Nat :=
  goals.foldl (fun m g => max m g.priorities.length) 0

/-- The full elimination filter of `main` (lines 157-172). -/
def evaluate (goals : List Goal) (paths : List (List Nat)) : List (List Nat) :=
  (List.range (maxPrioLen goals)).foldl (fun ps idx => goalRound goals idx ps) paths

/-- Model of `product(range(2), repeat=n)` in itertools order (first coordinate varies
slowest), with each tuple a `List Nat` of zeros and ones. -/
def binPaths : Nat → List (List Nat)
  | 0 => [[]]
  | n + 1 =>
    (binPaths n).map (fun p => 0 :: p) ++ (binPaths n).map (fun p => 1 :: p)

/-- Model of `list(product(range(2), repeat=7))` (line 152): the fixed candidate space. -/
def allPaths : List (List Nat) := binPaths 7

end Talents

namespace Training

/-- Model of `Step = namedtuple("Step", "xp, chance")` of `training.py`. -/
structure Step where
  xp : Int
  chance : Int
deriving DecidableEq, Repr

/-- Model of `math.ceil(a / b)` for integer arguments and positive `b`, expressed with
floor division: `ceil(a/b) = -floor(-a/b)`. -/
def ceilDiv (a b : Int) : Int := -((-a).fdiv b)

/-- Model of `do_steps = min(steps, math.ceil(asc[0] / step.xp))` (line 66). -/
def batchSize (stp : Step) (steps a : Int) : Int :=
  min steps (ceilDiv a stp.xp)

/-- The `while asc:` loop of one simulated run in `compute` (lines 63-74).
`fuel` is an upper bound on the number of iterations (the Python loop has no
such bound; termination is claim C9); `t` is the position in the random
stream, advanced once per iteration for the single `random.randrange(100)`
call.  Returns `(success, next stream position)`. -/
def runAux (stp : Step) (steps : Int) (rand : Nat → Nat) :
    Nat → List Int → Nat → Nat → Option (Bool × Nat)
  | _, [], _, t => some (false, t)
  | 0, _ :: _, _, _ => none
  | fuel + 1, a :: rest, level, t =>
    let do_steps := batchSize stp steps a
    let level' := if (rand t : Int) < do_steps * stp.chance then level + 1 else level
    if level' = 8 then some (true, t + 1)
    else
      let a' := a - do_steps * stp.xp
      if a' ≤ 0 then runAux stp steps rand fuel rest level' (t + 1)
      else runAux stp steps rand fuel (a' :: rest) level' (t + 1)

/-- The `for run in range(num_runs):` loop of `compute` (lines 62-74): each run
restarts from a fresh copy of `ascensions` at `level = 1`, consuming the random
stream sequentially.  Returns `(successes, next stream position)`. -/
def computeRuns (stp : Step) (steps : Int) (rand : Nat → Nat) (fuel : Nat) :
    Nat → List Int → Nat → Option (Nat × Nat)
  | 0, _, t => some (0, t)
  | n + 1, ascensions, t =>
    match runAux stp steps rand fuel ascensions 1 t with
    | none => none
    | some (success, t') =>
      match computeRuns stp steps rand fuel n ascensions t' with
      | none => none
      | some (cnt, t'') => some (if success then cnt + 1 else cnt, t'')

/-- Enough fuel for one run on requirement list `asc` (claim C9). -/
def fuelNeeded (asc : List Int) : Nat :=
  asc.foldr (fun a n => a.toNat + 1 + n) 0

end Training

namespace Talents

/-- Running maximum of `vals` over a path list, starting from `m` — the value
held by `current_max` after the elimination loop scans the list. -/
def mfold (vals : List Nat → Nat) (m : Nat) (l : List (List Nat)) : Nat :=
  l.foldl (fun m p => max m (vals p)) m

theorem mfold_nil (vals : List Nat → Nat) (m : Nat) : mfold vals m [] = m := rfl

theorem mfold_cons (vals : List Nat → Nat) (m : Nat) (p : List Nat)
    (l : List (List Nat)) : mfold vals m (p :: l) = mfold vals (max m (vals p)) l := rfl

theorem le_mfold (vals : List Nat → Nat) :
    ∀ (l : List (List Nat)) (m : Nat), m ≤ mfold vals m l := by
  intro l
  induction l with
  | nil => intro m; exact le_refl m
  | cons p rest ih =>
    intro m
    exact le_trans (le_max_left m (vals p)) (ih (max m (vals p)))

theorem mfold_init (vals : List Nat → Nat) :
    ∀ (l : List (List Nat)) (m : Nat), mfold vals m l = max m (mfold vals 0 l) := by
  intro l
  induction l with
  | nil => intro m; simp [mfold_nil]
  | cons p rest ih =>
    intro m
    rw [mfold_cons, mfold_cons, ih (max m (vals p)), ih (max 0 (vals p))]
    simp [max_assoc]

/-- Characterization of the state after the elimination loop of `main` scans
list `l` starting from state `(acc, m)`. -/
theorem foldl_roundStep (vals : List Nat → Nat) :
    ∀ (l acc : List (List Nat)) (m : Nat),
      l.foldl (roundStep vals) (acc, m) =
        (if mfold vals m l = m then acc ++ l.filter (fun p => vals p == m)
         else l.filter (fun p => vals p == mfold vals m l),
         mfold vals m l) := by
  intro l
  induction l with
  | nil => intro acc m; simp [mfold_nil]
  | cons p rest ih =>
    intro acc m
    rw [List.foldl_cons]
    rcases Nat.lt_trichotomy m (vals p) with h1 | h1 | h1
    · have hstep : roundStep vals (acc, m) p = ([p], vals p) := by
        simp [roundStep, h1]
      rw [hstep, ih]
      have hm : mfold vals m (p :: rest) = mfold vals (vals p) rest := by
        rw [mfold_cons, max_eq_right h1.le]
      have hMv : vals p ≤ mfold vals (vals p) rest := le_mfold vals rest (vals p)
      have hMm : mfold vals m (p :: rest) ≠ m := by
        rw [hm]; exact (lt_of_lt_of_le h1 hMv).ne'
      rw [if_neg hMm, hm]
      by_cases hEq : mfold vals (vals p) rest = vals p
      · rw [if_pos hEq, hEq]
        simp [List.filter_cons]
      · rw [if_neg hEq]
        simp [List.filter_cons, Ne.symm hEq]
    · have hstep : roundStep vals (acc, m) p = (acc ++ [p], m) := by
        simp [roundStep, h1]
      rw [hstep, ih]
      have hm : mfold vals m (p :: rest) = mfold vals m rest := by
        rw [mfold_cons, h1, max_self]
      rw [hm]
      by_cases hEq : mfold vals m rest = m
      · rw [if_pos hEq, if_pos hEq]
        simp [List.filter_cons, ← h1, List.append_assoc]
      · rw [if_neg hEq, if_neg hEq]
        have hne : vals p ≠ mfold vals m rest :=
          fun hc => hEq (hc.symm.trans h1.symm)
        simp [List.filter_cons, hne]
    · have hstep : roundStep vals (acc, m) p = (acc, m) := by
        have h2 : ¬ vals p > m := not_lt_of_gt h1
        have h3 : vals p ≠ m := ne_of_lt h1
        simp [roundStep, h2, h3]
      rw [hstep, ih]
      have hm : mfold vals m (p :: rest) = mfold vals m rest := by
        rw [mfold_cons, max_eq_left h1.le]
      rw [hm]
      by_cases hEq : mfold vals m rest = m
      · rw [if_pos hEq, if_pos hEq]
        simp [List.filter_cons, ne_of_lt h1]
      · rw [if_neg hEq, if_neg hEq]
        have hlt : vals p < mfold vals m rest :=
          lt_of_lt_of_le h1 (le_mfold vals rest m)
        simp [List.filter_cons, ne_of_lt hlt]

/-- One elimination round keeps exactly the paths achieving the maximum of
`vals` over the incoming list (with `current_max` starting at 0; since stat
counts are non-negative this is the true maximum). -/
theorem filterRound_eq (vals : List Nat → Nat) (ps : List (List Nat)) :
    filterRound vals ps = ps.filter (fun p => vals p == mfold vals 0 ps) := by
  unfold filterRound
  rw [foldl_roundStep]
  by_cases h : mfold vals 0 ps = 0
  · rw [if_pos h, h, List.nil_append]
  · rw [if_neg h]

theorem filterRound_sublist (vals : List Nat → Nat) (ps : List (List Nat)) :
    List.Sublist (filterRound vals ps) ps := by
  rw [filterRound_eq]; exact List.filter_sublist ps

theorem mem_filterRound_val (vals : List Nat → Nat) (ps : List (List Nat))
    (p : List Nat) (hp : p ∈ filterRound vals ps) : vals p = mfold vals 0 ps := by
  rw [filterRound_eq] at hp
  simpa using (List.mem_filter.mp hp).2

theorem exists_mfold_mem (vals : List Nat → Nat) :
    ∀ (ps : List (List Nat)), ps ≠ [] → ∃ p ∈ ps, vals p = mfold vals 0 ps := by
  intro ps
  induction ps with
  | nil => intro h; exact absurd rfl h
  | cons p rest ih =>
    intro _
    have hsplit : mfold vals 0 (p :: rest) = max (vals p) (mfold vals 0 rest) := by
      rw [mfold_cons, mfold_init vals rest (max 0 (vals p))]
      simp
    by_cases hle : mfold vals 0 rest ≤ vals p
    · exact ⟨p, List.mem_cons_self p rest, by rw [hsplit, max_eq_left hle]⟩
    · rcases rest with _ | ⟨q, qs⟩
      · exact absurd (Nat.zero_le _) hle
      · obtain ⟨r, hr, hrv⟩ := ih (List.cons_ne_nil q qs)
        refine ⟨r, List.mem_cons_of_mem p hr, ?_⟩
        rw [hsplit, max_eq_right (le_of_not_le hle), hrv]

theorem filterRound_ne_nil (vals : List Nat → Nat) (ps : List (List Nat))
    (hps : ps ≠ []) : filterRound vals ps ≠ [] := by
  obtain ⟨p, hp, hv⟩ := exists_mfold_mem vals ps hps
  rw [filterRound_eq]
  intro hnil
  have : p ∈ ps.filter (fun p => vals p == mfold vals 0 ps) :=
    List.mem_filter.mpr ⟨hp, by simp [hv]⟩
  rw [hnil] at this
  exact List.not_mem_nil p this

theorem filterRound_const (vals : List Nat → Nat) (ps : List (List Nat))
    (c : Nat) (hc : ∀ p ∈ ps, vals p = c) : filterRound vals ps = ps := by
  rcases ps with _ | ⟨q, qs⟩
  · rfl
  · obtain ⟨p0, hp0, hv0⟩ :=
      exists_mfold_mem vals (q :: qs) (List.cons_ne_nil q qs)
    have hm : mfold vals 0 (q :: qs) = c := by rw [← hv0, hc p0 hp0]
    rw [filterRound_eq]
    apply List.filter_eq_self.mpr
    intro p hp
    simp [hc p hp, hm]

/-- The elimination pipeline viewed as a fold of single rounds: each element of
`ops` is the stat valuation of one (priority index, goal) round, in the order
`main` executes them. -/
def runOps (ops : List (List Nat → Nat)) (ps : List (List Nat)) : List (List Nat) :=
  ops.foldl (fun acc v => filterRound v acc) ps

/-- The round valuations executed by `main` for a given goal list: one per
priority index and goal possessing that index. -/
def opsOf (goals : List Goal) : List (List Nat → Nat) :=
  (List.range (maxPrioLen goals)).flatMap
    (fun idx =>
      goals.filterMap
        (fun g => (g.priorities.get? idx).map (fun prio => pathStat g.cls prio)))

theorem runOps_sublist (ops : List (List Nat → Nat)) :
    ∀ ps : List (List Nat), List.Sublist (runOps ops ps) ps := by
  induction ops with
  | nil => intro ps; exact List.Sublist.refl ps
  | cons v rest ih =>
    intro ps
    exact (ih (filterRound v ps)).trans (filterRound_sublist v ps)

theorem runOps_ne_nil (ops : List (List Nat → Nat)) :
    ∀ ps : List (List Nat), ps ≠ [] → runOps ops ps ≠ [] := by
  induction ops with
  | nil => intro ps hps; exact hps
  | cons v rest ih =>
    intro ps hps
    exact ih (filterRound v ps) (filterRound_ne_nil v ps hps)

theorem runOps_idem (ops : List (List Nat → Nat)) :
    ∀ ps : List (List Nat), runOps ops (runOps ops ps) = runOps ops ps := by
  induction ops with
  | nil => intro ps; rfl
  | cons v rest ih =>
    intro ps
    show runOps rest (filterRound v (runOps rest (filterRound v ps))) = _
    have hconst : filterRound v (runOps rest (filterRound v ps)) =
        runOps rest (filterRound v ps) := by
      apply filterRound_const v _ (mfold v 0 ps)
      intro p hp
      exact mem_filterRound_val v ps p
        ((runOps_sublist rest (filterRound v ps)).mem hp)
    rw [hconst]
    exact ih (filterRound v ps)

theorem goalRound_eq_fold (goals : List Goal) (idx : Nat) :
    ∀ ps : List (List Nat),
      goalRound goals idx ps =
        (goals.filterMap
            (fun g => (g.priorities.get? idx).map (fun prio => pathStat g.cls prio))).foldl
          (fun acc v => filterRound v acc) ps := by
  induction goals with
  | nil => intro ps; rfl
  | cons g gs ih =>
    intro ps
    rw [List.filterMap_cons]
    rcases hg : g.priorities.get? idx with _ | prio
    · simp only [goalRound, List.foldl_cons, hg, Option.map_none']
      exact ih ps
    · simp only [goalRound, List.foldl_cons, hg, Option.map_some']
      exact ih (filterRound (pathStat g.cls prio) ps)

theorem foldl_rounds_bind (f : Nat → List (List Nat → Nat)) :
    ∀ (idxs : List Nat) (ps : List (List Nat)),
      idxs.foldl (fun acc idx => (f idx).foldl (fun a v => filterRound v a) acc) ps =
        (idxs.flatMap f).foldl (fun a v => filterRound v a) ps := by
  intro idxs
  induction idxs with
  | nil => intro ps; rfl
  | cons i rest ih =>
    intro ps
    rw [List.foldl_cons, List.flatMap_cons, List.foldl_append]
    exact ih _

theorem foldl_goalRound (goals : List Goal) :
    ∀ (idxs : List Nat) (ps : List (List Nat)),
      idxs.foldl (fun ps idx => goalRound goals idx ps) ps =
        idxs.foldl
          (fun acc idx =>
            (goals.filterMap
                (fun g =>
                  (g.priorities.get? idx).map (fun prio => pathStat g.cls prio))).foldl
              (fun a v => filterRound v a) acc)
          ps := by
  intro idxs
  induction idxs with
  | nil => intro ps; rfl
  | cons i rest ih =>
    intro ps
    rw [List.foldl_cons, List.foldl_cons, goalRound_eq_fold]
    exact ih _

theorem evaluate_eq_runOps (goals : List Goal) (ps : List (List Nat)) :
    evaluate goals ps = runOps (opsOf goals) ps := by
  unfold evaluate runOps opsOf
  rw [foldl_goalRound, foldl_rounds_bind]

/-- The tally contributed by the selected alternative of each branch position
(`Σ selected_alternative_i` in the spec's formula). -/
def selectedSum (branches : List (List TalentCounter)) (path : List Nat) :
    TalentCounter :=
  fun k => ((branches.zip path).map (fun sw => (sw.1.getD sw.2 tcZero) k)).sum

theorem count_path_go_spec :
    ∀ (l : List (List TalentCounter × Nat)) (acc : TalentCounter),
      (∀ sw ∈ l, sw.2 < sw.1.length) →
      count_path_go acc l =
        some (fun k => acc k + ((l.map (fun sw => (sw.1.getD sw.2 tcZero) k)).sum)) := by
  intro l
  induction l with
  | nil =>
    intro acc _
    simp only [count_path_go, List.map_nil, List.sum_nil]
    exact congrArg some (funext fun k => (Nat.add_zero (acc k)).symm)
  | cons sw rest ih =>
    intro acc hall
    obtain ⟨split, w⟩ := sw
    have hw : w < split.length := hall (split, w) (List.mem_cons_self _ _)
    have hget : split.get? w = some (split.getD w tcZero) := by
      rw [List.getD_eq_getElem?_getD, List.getElem?_eq_getElem hw,
        List.get?_eq_getElem?, List.getElem?_eq_getElem hw]
      rfl
    simp only [count_path_go, hget]
    rw [ih (addCounter acc (split.getD w tcZero))
        (fun sw hsw => hall sw (List.mem_cons_of_mem _ hsw))]
    refine congrArg some (funext fun k => ?_)
    simp only [addCounter, List.map_cons, List.sum_cons]
    exact Nat.add_assoc (acc k) _ _

/-- Successful resolution: with a matching path length and in-range selectors,
`count_path` returns `base + Σ selected_alternative_i`. -/
theorem count_path_spec (cls : ClassTalents) (path : List Nat)
    (hlen : path.length = cls.branches.length)
    (hsel : ∀ sw ∈ cls.branches.zip path, sw.2 < sw.1.length) :
    count_path cls path =
      some (fun k => cls.count k + selectedSum cls.branches path k) := by
  unfold count_path
  rw [if_neg (by rw [hlen]; exact fun h => h rfl)]
  rw [count_path_go_spec (cls.branches.zip path) _ hsel]
  refine congrArg some (funext fun k => ?_)
  simp [addCounter, tcZero, selectedSum]

theorem binPaths_mem :
    ∀ (n : Nat) (p : List Nat), p ∈ binPaths n → p.length = n ∧ ∀ w ∈ p, w < 2 := by
  intro n
  induction n with
  | zero =>
    intro p hp
    simp only [binPaths, List.mem_singleton] at hp
    subst hp
    exact ⟨rfl, fun w hw => absurd hw (List.not_mem_nil w)⟩
  | succ n ih =>
    intro p hp
    simp only [binPaths, List.mem_append, List.mem_map] at hp
    rcases hp with ⟨q, hq, hpq⟩ | ⟨q, hq, hpq⟩ <;> subst hpq <;>
      obtain ⟨hlen, hsel⟩ := ih q hq
    · refine ⟨by simp [hlen], fun w hw => ?_⟩
      rcases List.mem_cons.mp hw with h | h
      · subst h; exact Nat.zero_lt_two
      · exact hsel w h
    · refine ⟨by simp [hlen], fun w hw => ?_⟩
      rcases List.mem_cons.mp hw with h | h
      · subst h; exact Nat.one_lt_two
      · exact hsel w h

theorem binPaths_ne_nil (n : Nat) : binPaths n ≠ [] := by
  induction n with
  | zero => exact List.cons_ne_nil _ _
  | succ n ih =>
    simp only [binPaths]
    intro h
    rcases List.append_eq_nil.mp h with ⟨h1, _⟩
    exact ih (List.map_eq_nil_iff.mp h1)

/-- In-range selectors hold for every candidate path over a class whose splits
all have at least the binary number of alternatives. -/
theorem zip_sel_lt (cls : ClassTalents) (p : List Nat)
    (hs : ∀ s ∈ cls.branches, 2 ≤ s.length) (hp : ∀ w ∈ p, w < 2) :
    ∀ sw ∈ cls.branches.zip p, sw.2 < sw.1.length := by
  intro sw hsw
  obtain ⟨h1, h2⟩ := List.of_mem_zip hsw
  exact lt_of_lt_of_le (hp sw.2 h2) (hs sw.1 h1)

end Talents

namespace Training

theorem ceilDiv_mul_ge (a b : Int) (hb : 0 < b) : a ≤ ceilDiv a b * b := by
  unfold ceilDiv
  have hid := Int.fmod_add_fdiv (-a) b
  have hnn : 0 ≤ (-a).fmod b := Int.fmod_nonneg' (-a) hb
  nlinarith [hid, hnn]

theorem ceilDiv_pred_mul_lt (a b : Int) (hb : 0 < b) : (ceilDiv a b - 1) * b < a := by
  unfold ceilDiv
  have h := Int.lt_fdiv_add_one_mul_self (-a) hb
  nlinarith [h]

theorem one_le_ceilDiv (a b : Int) (ha : 0 < a) (hb : 0 < b) : 1 ≤ ceilDiv a b := by
  unfold ceilDiv
  have h : (-a).fdiv b < 0 := Int.fdiv_neg' (by omega) hb
  omega

theorem ceilDiv_nonpos (a b : Int) (ha : a ≤ 0) (hb : 0 < b) : ceilDiv a b ≤ 0 := by
  unfold ceilDiv
  have h : 0 ≤ (-a).fdiv b := Int.fdiv_nonneg (by omega) hb.le
  omega

/-- Bridge: `ceilDiv` agrees with the mathematical ceiling of the exact quotient, the
semantics of Python's `math.ceil(a / b)`. -/
theorem ceilDiv_eq_ceil (a b : Int) (hb : 0 < b) :
    ceilDiv a b = ⌈(a : ℚ) / (b : ℚ)⌉ := by
  have hbQ : (0 : ℚ) < (b : ℚ) := by exact_mod_cast hb
  rw [eq_comm, Int.ceil_eq_iff]
  constructor
  · rw [lt_div_iff₀ hbQ]
    exact_mod_cast ceilDiv_pred_mul_lt a b hb
  · rw [div_le_iff₀ hbQ]
    exact_mod_cast ceilDiv_mul_ge a b hb

/-- One-step unfolding of the `while` loop body, with the batch size named. -/
theorem runAux_cons (stp : Step) (steps : Int) (rand : Nat → Nat) (fuel : Nat)
    (a : Int) (rest : List Int) (level t : Nat) :
    runAux stp steps rand (fuel + 1) (a :: rest) level t =
      (if (if (rand t : Int) < batchSize stp steps a * stp.chance then level + 1
           else level) = 8
       then some (true, t + 1)
       else if a - batchSize stp steps a * stp.xp ≤ 0 then
         runAux stp steps rand fuel rest
           (if (rand t : Int) < batchSize stp steps a * stp.chance then level + 1
            else level) (t + 1)
       else
         runAux stp steps rand fuel ((a - batchSize stp steps a * stp.xp) :: rest)
           (if (rand t : Int) < batchSize stp steps a * stp.chance then level + 1
            else level) (t + 1)) := rfl

/-- Termination of one simulated run: `fuelNeeded asc` iterations always
suffice when `xp > 0` and the batch cap is at least 1. -/
theorem runAux_total (stp : Step) (steps : Int) (rand : Nat → Nat)
    (hxp : 0 < stp.xp) (hsteps : 1 ≤ steps) :
    ∀ (fuel : Nat) (asc : List Int) (level t : Nat),
      fuelNeeded asc ≤ fuel → (runAux stp steps rand fuel asc level t).isSome := by
  intro fuel
  induction fuel with
  | zero =>
    intro asc level t h
    rcases asc with _ | ⟨a, rest⟩
    · simp [runAux]
    · exfalso
      simp only [fuelNeeded, List.foldr_cons] at h
      omega
  | succ fuel ih =>
    intro asc level t h
    rcases asc with _ | ⟨a, rest⟩
    · simp [runAux]
    · have hfr : fuelNeeded (a :: rest) = a.toNat + 1 + fuelNeeded rest := rfl
      rw [runAux_cons]
      by_cases h8 :
          (if (rand t : Int) < batchSize stp steps a * stp.chance then level + 1
           else level) = 8
      · rw [if_pos h8]; rfl
      · rw [if_neg h8]
        by_cases hclear : a - batchSize stp steps a * stp.xp ≤ 0
        · rw [if_pos hclear]
          exact ih rest _ (t + 1) (by omega)
        · rw [if_neg hclear]
          have ha : 0 < a := by
            by_contra hc
            push_neg at hc
            have hcd : ceilDiv a stp.xp ≤ 0 := ceilDiv_nonpos a stp.xp hc hxp
            have hds : batchSize stp steps a = ceilDiv a stp.xp :=
              min_eq_right (by omega)
            have hup : a ≤ batchSize stp steps a * stp.xp := by
              rw [hds]; exact ceilDiv_mul_ge a stp.xp hxp
            exact hclear (by linarith)
          have hds1 : 1 ≤ batchSize stp steps a :=
            le_min hsteps (one_le_ceilDiv a stp.xp ha hxp)
          have hdec : a - batchSize stp steps a * stp.xp < a := by
            nlinarith
          apply ih _ _ (t + 1)
          have hfr2 :
              fuelNeeded ((a - batchSize stp steps a * stp.xp) :: rest) =
                (a - batchSize stp steps a * stp.xp).toNat + 1 + fuelNeeded rest := rfl
          rw [hfr2]
          push_neg at hclear
          omega

/-- Totality of the whole Monte Carlo loop under the same hypotheses. -/
theorem computeRuns_total (stp : Step) (steps : Int) (rand : Nat → Nat)
    (hxp : 0 < stp.xp) (hsteps : 1 ≤ steps) (asc : List Int) :
    ∀ (numRuns t : Nat),
      (computeRuns stp steps rand (fuelNeeded asc) numRuns asc t).isSome := by
  intro numRuns
  induction numRuns with
  | zero => intro t; simp [computeRuns]
  | succ n ih =>
    intro t
    have h := runAux_total stp steps rand hxp hsteps (fuelNeeded asc) asc 1 t
      (le_refl _)
    obtain ⟨res, hres⟩ := Option.isSome_iff_exists.mp h
    obtain ⟨success, t2⟩ := res
    simp only [computeRuns, hres]
    have h2 := ih t2
    obtain ⟨res2, hres2⟩ := Option.isSome_iff_exists.mp h2
    obtain ⟨cnt, t3⟩ := res2
    simp [hres2]

/-- With a 100% success chance, positive in-range requirements each cleared in
one batch, a run performs exactly seven level-ups and succeeds. -/
theorem runAux_all_success (stp : Step) (steps : Int) (rand : Nat → Nat)
    (hxp : 0 < stp.xp) (hch : stp.chance = 100) (hrand : ∀ n, rand n < 100) :
    ∀ (asc : List Int) (level t fuel : Nat),
      1 ≤ level → level ≤ 7 → 8 - level ≤ asc.length →
      (∀ a ∈ asc, 0 < a ∧ ceilDiv a stp.xp ≤ steps) →
      8 - level ≤ fuel →
      runAux stp steps rand fuel asc level t = some (true, t + (8 - level)) := by
  intro asc
  induction asc with
  | nil =>
    intro level t fuel h1 h7 hlen _ _
    simp only [List.length_nil] at hlen
    omega
  | cons a rest ih =>
    intro level t fuel h1 h7 hlen hpos hfuel
    obtain ⟨ha, hcd⟩ := hpos a (List.mem_cons_self a rest)
    obtain ⟨f, rfl⟩ : ∃ f, fuel = f + 1 := ⟨fuel - 1, by omega⟩
    rw [runAux_cons]
    have hds : batchSize stp steps a = ceilDiv a stp.xp := min_eq_right hcd
    have hds1 : 1 ≤ batchSize stp steps a :=
      le_min (le_trans (one_le_ceilDiv a stp.xp ha hxp) hcd)
        (one_le_ceilDiv a stp.xp ha hxp)
    have hroll : (rand t : Int) < batchSize stp steps a * stp.chance := by
      rw [hch]
      have hr : (rand t : Int) < 100 := by exact_mod_cast hrand t
      nlinarith
    rw [if_pos hroll]
    by_cases h8 : level + 1 = 8
    · rw [if_pos h8]
      have : 8 - level = 1 := by omega
      rw [this]
    · rw [if_neg h8]
      have hclear : a - batchSize stp steps a * stp.xp ≤ 0 := by
        rw [hds]
        have := ceilDiv_mul_ge a stp.xp hxp
        linarith
      rw [if_pos hclear]
      have harith : (t + 1) + (8 - (level + 1)) = t + (8 - level) := by omega
      rw [ih (level + 1) (t + 1) f (by omega) (by omega)
        (by simp only [List.length_cons] at hlen; omega)
        (fun b hb => hpos b (List.mem_cons_of_mem a hb)) (by omega), harith]

/-- All `numRuns` runs succeed under the conditions of `runAux_all_success`
when the requirement list has at least seven entries. -/
theorem computeRuns_all_success (stp : Step) (steps : Int) (rand : Nat → Nat)
    (fuel : Nat) (asc : List Int)
    (hxp : 0 < stp.xp) (hch : stp.chance = 100) (hrand : ∀ n, rand n < 100)
    (hlen : 7 ≤ asc.length)
    (hpos : ∀ a ∈ asc, 0 < a ∧ ceilDiv a stp.xp ≤ steps)
    (hfuel : 7 ≤ fuel) :
    ∀ (numRuns t : Nat),
      computeRuns stp steps rand fuel numRuns asc t =
        some (numRuns, t + 7 * numRuns) := by
  intro numRuns
  induction numRuns with
  | zero => intro t; simp [computeRuns]
  | succ n ih =>
    intro t
    have hrun := runAux_all_success stp steps rand hxp hch hrand asc 1 t fuel
      (le_refl 1) (by omega) (by simpa using hlen) hpos (by omega)
    simp only [computeRuns, hrun, ih (t + 7)]
    refine congrArg some ?_
    refine Prod.ext ?_ ?_
    · simp
    · simp; omega

end Training

namespace Talents

theorem mfold_eq_foldl_map (vals : List Nat → Nat) (l : List (List Nat)) :
    mfold vals 0 l = (l.map vals).foldl max 0 := by
  rw [List.foldl_map]; rfl

end Talents

/-- A 7-branch example class: each split offers nothing versus one attack. -/
def clsA : Talents.ClassTalents :=
  ⟨"Alpha", Talents.tcZero,
    List.replicate 7 [Talents.tcZero, Talents.addStep Talents.tcZero Talents.Step.attack]⟩

/-- A 1-branch example class, fewer branches than the fixed search width. -/
def clsB : Talents.ClassTalents :=
  ⟨"Bard", Talents.tcZero,
    [[Talents.tcZero, Talents.addStep Talents.tcZero Talents.Step.attack]]⟩

/-- A 2-branch example class for the resolution formula. -/
def clsW : Talents.ClassTalents :=
  ⟨"Wu Kong", Talents.addStep Talents.tcZero Talents.Step.health,
    [[Talents.tcZero, Talents.addStep Talents.tcZero Talents.Step.attack],
     [Talents.addStep Talents.tcZero Talents.Step.mana, Talents.tcZero]]⟩

/-- Claim C1: for a single goal with a single priority over a 7-branch entity,
the surviving path set is exactly the set of length-7 binary paths whose
resolved tally achieves the maximum value of that stat over all 2^7
candidates.  (`pathStat` is the stat of the resolved tally: first conjunct.) -/
theorem claim_C1 (cls : Talents.ClassTalents) (prio : Talents.Step)
    (h7 : cls.branches.length = 7)
    (hbin : ∀ s ∈ cls.branches, 2 ≤ s.length) :
    (∀ p ∈ Talents.allPaths, ∃ tc, Talents.count_path cls p = some tc ∧
        Talents.pathStat cls prio p = tc prio) ∧
      Talents.evaluate [⟨cls, [prio]⟩] Talents.allPaths =
        Talents.allPaths.filter
          (fun p => Talents.pathStat cls prio p ==
            (Talents.allPaths.map (Talents.pathStat cls prio)).foldl max 0) := by
  constructor
  · intro p hp
    obtain ⟨hlen, hsel⟩ := Talents.binPaths_mem 7 p hp
    have heq := Talents.count_path_spec cls p (by rw [hlen, h7])
      (Talents.zip_sel_lt cls p hbin hsel)
    exact ⟨_, heq, by rw [Talents.pathStat, heq]⟩
  · have hev : Talents.evaluate [⟨cls, [prio]⟩] Talents.allPaths =
        Talents.filterRound (Talents.pathStat cls prio) Talents.allPaths := rfl
    rw [hev, Talents.filterRound_eq, Talents.mfold_eq_foldl_map]

/-- Claim C1 witness: the theorem applied to the concrete 7-branch class
`clsA` with priority `attack`. -/
theorem claim_C1_witness :
    Talents.evaluate [⟨clsA, [Talents.Step.attack]⟩] Talents.allPaths =
      Talents.allPaths.filter
        (fun p => Talents.pathStat clsA Talents.Step.attack p ==
          (Talents.allPaths.map (Talents.pathStat clsA Talents.Step.attack)).foldl
            max 0) :=
  (claim_C1 clsA Talents.Step.attack (by decide) (by decide)).2

/-- Claim C2 counterexample: the claim asserts that an entity with fewer
branches than the path silently applies the matching prefix without error; on
the code, `count_path` raises `ValueError` (modelled `none`) for the 1-branch
class `clsB` and a length-7 path. -/
theorem claim_C2_counterexample :
    clsB.branches.length < 7 ∧
      Talents.count_path clsB [0, 0, 0, 0, 0, 0, 0] = none :=
  ⟨by decide, rfl⟩

/-- Claim C2 amended: resolving a path whose length differs from the entity's
branch count fails (raises `ValueError`); no prefix of the path is applied. -/
theorem claim_C2_amended (cls : Talents.ClassTalents) (path : List Nat)
    (h : path.length ≠ cls.branches.length) :
    Talents.count_path cls path = none := by
  unfold Talents.count_path
  rw [if_pos h]

/-- Claim C2 amended witness: the 1-branch class with a 7-selector path. -/
theorem claim_C2_amended_witness :
    Talents.count_path clsB [0, 0, 0, 0, 0, 0, 0] = none :=
  claim_C2_amended clsB [0, 0, 0, 0, 0, 0, 0] (by decide)

/-- Claim C3: in every step on a non-empty requirement list, the batch equals
`min(max_batch, ceil(head / xp))` with real ceiling semantics, and the level
is incremented exactly when the single `[0,100)` draw is strictly below
`batch_size * success_chance_percent` (linear threshold, not compounded). -/
theorem claim_C3 (stp : Training.Step) (steps : Int) (rand : Nat → Nat)
    (fuel : Nat) (a : Int) (rest : List Int) (level t : Nat)
    (hxp : 0 < stp.xp) :
    Training.batchSize stp steps a = min steps ⌈(a : ℚ) / (stp.xp : ℚ)⌉ ∧
      Training.runAux stp steps rand (fuel + 1) (a :: rest) level t =
        (if (if (rand t : Int) < Training.batchSize stp steps a * stp.chance
             then level + 1 else level) = 8
         then some (true, t + 1)
         else if a - Training.batchSize stp steps a * stp.xp ≤ 0 then
           Training.runAux stp steps rand fuel rest
             (if (rand t : Int) < Training.batchSize stp steps a * stp.chance
              then level + 1 else level) (t + 1)
         else
           Training.runAux stp steps rand fuel
             ((a - Training.batchSize stp steps a * stp.xp) :: rest)
             (if (rand t : Int) < Training.batchSize stp steps a * stp.chance
              then level + 1 else level) (t + 1)) ∧
      ((if (rand t : Int) < Training.batchSize stp steps a * stp.chance
        then level + 1 else level) = level + 1 ↔
        (rand t : Int) < Training.batchSize stp steps a * stp.chance) := by
  refine ⟨?_, Training.runAux_cons stp steps rand fuel a rest level t, ?_⟩
  · unfold Training.batchSize
    rw [Training.ceilDiv_eq_ceil a stp.xp hxp]
  · constructor
    · intro h
      by_cases hc : (rand t : Int) < Training.batchSize stp steps a * stp.chance
      · exact hc
      · rw [if_neg hc] at h
        omega
    · intro h
      rw [if_pos h]

/-- Claim C3 witness: one concrete step (`xp = 180`, `chance = 2`,
`max_batch = 10`, head requirement 200, draw 50). -/
theorem claim_C3_witness :
    Training.batchSize ⟨180, 2⟩ 10 200 = min 10 ⌈(200 : ℚ) / ((180 : Int) : ℚ)⌉ ∧
      Training.runAux ⟨180, 2⟩ 10 (fun _ => 50) (5 + 1) (200 :: []) 1 0 =
        (if (if ((fun _ : Nat => 50) 0 : Int) < Training.batchSize ⟨180, 2⟩ 10 200 * (2 : Int)
             then 1 + 1 else 1) = 8
         then some (true, 0 + 1)
         else if 200 - Training.batchSize ⟨180, 2⟩ 10 200 * (180 : Int) ≤ 0 then
           Training.runAux ⟨180, 2⟩ 10 (fun _ => 50) 5 []
             (if ((fun _ : Nat => 50) 0 : Int) < Training.batchSize ⟨180, 2⟩ 10 200 * (2 : Int)
              then 1 + 1 else 1) (0 + 1)
         else
           Training.runAux ⟨180, 2⟩ 10 (fun _ => 50) 5
             ((200 - Training.batchSize ⟨180, 2⟩ 10 200 * (180 : Int)) :: [])
             (if ((fun _ : Nat => 50) 0 : Int) < Training.batchSize ⟨180, 2⟩ 10 200 * (2 : Int)
              then 1 + 1 else 1) (0 + 1)) ∧
      ((if ((fun _ : Nat => 50) 0 : Int) < Training.batchSize ⟨180, 2⟩ 10 200 * (2 : Int)
        then 1 + 1 else 1) = 1 + 1 ↔
        ((fun _ : Nat => 50) 0 : Int) < Training.batchSize ⟨180, 2⟩ 10 200 * (2 : Int)) :=
  claim_C3 ⟨180, 2⟩ 10 (fun _ => 50) 5 200 [] 1 0 (by decide)

/-- Claim C4 counterexample: with `chance = 100`, `xp = 1`, `max_batch = 1`
(so the single requirement `ceil(1/1) = 1 ≤ 1` is cleared in one step), draws
all 0, one run over the ascension list `[1]` fails: the list is exhausted
after a single level-up, long before level 8, so `successes = 0 ≠ 1 = num_runs`. -/
theorem claim_C4_counterexample :
    Training.ceilDiv 1 1 ≤ 1 ∧
      Training.computeRuns ⟨1, 100⟩ 1 (fun _ => 0) 10 1 [1] 0 = some (0, 1) ∧
      (0 : Nat) ≠ 1 :=
  ⟨by decide, by decide, by decide⟩

/-- Claim C4 amended: with `success_chance_percent = 100`, every draw in
`[0,100)`, and a max batch large enough to clear each requirement in one step,
every run succeeds — provided the ascension requirement list has at least 7
entries, all positive (levels go 1 → 8, consuming one requirement each).
Then `successes = num_runs` exactly. -/
theorem claim_C4 (stp : Training.Step) (steps : Int) (rand : Nat → Nat)
    (fuel : Nat) (asc : List Int) (numRuns t : Nat)
    (hxp : 0 < stp.xp) (hch : stp.chance = 100) (hrand : ∀ n, rand n < 100)
    (hlen : 7 ≤ asc.length)
    (hpos : ∀ a ∈ asc, 0 < a ∧ Training.ceilDiv a stp.xp ≤ steps)
    (hfuel : 7 ≤ fuel) :
    Training.computeRuns stp steps rand fuel numRuns asc t =
      some (numRuns, t + 7 * numRuns) :=
  Training.computeRuns_all_success stp steps rand fuel asc hxp hch hrand hlen
    hpos hfuel numRuns t

/-- Claim C4 witness: 2 runs over seven unit requirements with certain
success; both runs succeed. -/
theorem claim_C4_witness :
    Training.computeRuns ⟨1, 100⟩ 1 (fun _ => 0) 7 2 [1, 1, 1, 1, 1, 1, 1] 0 =
      some (2, 0 + 7 * 2) :=
  claim_C4 ⟨1, 100⟩ 1 (fun _ => 0) 7 [1, 1, 1, 1, 1, 1, 1] 2 0 (by decide)
    (by decide) (fun n => by show (0 : Nat) < 100; decide) (by decide) (by decide)
    (by decide)

/-- Claim C5: merging Stat Tallies is element-wise addition per stat kind and
is commutative; `TalentCounter` is a total map on the closed `Step`
enumeration, so the merge cannot introduce a key outside the closed set. -/
theorem claim_C5 (t1 t2 : Talents.TalentCounter) :
    (∀ k : Talents.Step, Talents.addCounter t1 t2 k = t1 k + t2 k) ∧
      Talents.addCounter t1 t2 = Talents.addCounter t2 t1 :=
  ⟨fun _ => rfl, funext fun k => Nat.add_comm (t1 k) (t2 k)⟩

/-- Claim C6: resolving a fully-specified binary path of matching length is
deterministic (`count_path` is a pure function of the entity and the path) and
yields `base + Σ selected_alternative_i`. -/
theorem claim_C6 (cls : Talents.ClassTalents) (path : List Nat)
    (hlen : path.length = cls.branches.length)
    (hbin : ∀ s ∈ cls.branches, s.length = 2)
    (hsel : ∀ w ∈ path, w < 2) :
    Talents.count_path cls path =
      some (fun k => cls.count k + Talents.selectedSum cls.branches path k) :=
  Talents.count_path_spec cls path hlen
    (Talents.zip_sel_lt cls path (fun s hs => le_of_eq (hbin s hs).symm) hsel)

/-- Claim C6 witness: the 2-branch class `clsW` resolved along path `[0, 1]`. -/
theorem claim_C6_witness :
    Talents.count_path clsW [0, 1] =
      some (fun k => clsW.count k + Talents.selectedSum clsW.branches [0, 1] k) :=
  claim_C6 clsW [0, 1] (by decide) (by decide) (by decide)

/-- Claim C7: applying the full elimination-filter sequence a second time with
the same goal set to the surviving path set returns it unchanged. -/
theorem claim_C7 (goals : List Talents.Goal) (hg : goals ≠ []) :
    Talents.evaluate goals (Talents.evaluate goals Talents.allPaths) =
      Talents.evaluate goals Talents.allPaths := by
  rw [Talents.evaluate_eq_runOps, Talents.evaluate_eq_runOps]
  exact Talents.runOps_idem (Talents.opsOf goals) Talents.allPaths

/-- Claim C7 witness: idempotence on the concrete goal set over `clsA`. -/
theorem claim_C7_witness :
    Talents.evaluate [⟨clsA, [Talents.Step.attack]⟩]
        (Talents.evaluate [⟨clsA, [Talents.Step.attack]⟩] Talents.allPaths) =
      Talents.evaluate [⟨clsA, [Talents.Step.attack]⟩] Talents.allPaths :=
  claim_C7 [⟨clsA, [Talents.Step.attack]⟩] (List.cons_ne_nil _ _)

/-- Claim C8: a priority string containing an unknown code character makes
`parse_priorities` fail with `invalidPriority` (the spec's
`InvalidPriorityError`), and a goal naming an entity absent from the loaded
definitions makes goal construction fail with `unknownEntity` (the spec's
`UnknownEntityError`). -/
theorem claim_C8 :
    (∀ (cs : List Char) (c : Char), c ∈ cs → Talents.step_map c = none →
        ∃ cBad, Talents.step_map cBad = none ∧
          Talents.parse_priorities cs =
            Except.error (Talents.TalentError.invalidPriority cBad)) ∧
      (∀ (classes : List (String × Talents.ClassTalents)) (n : String)
          (p : List Char) (rest : List (String × List Char)),
          classes.lookup n = none →
          Talents.makeGoals classes ((n, p) :: rest) =
            Except.error (Talents.TalentError.unknownEntity n)) := by
  constructor
  · intro cs
    induction cs with
    | nil => intro c hc; exact absurd hc (List.not_mem_nil c)
    | cons c0 rest ih =>
      intro c hc hbad
      rcases h0 : Talents.step_map c0 with _ | s0
      · exact ⟨c0, h0, by simp [Talents.parse_priorities, h0]⟩
      · have hcr : c ∈ rest := by
          rcases List.mem_cons.mp hc with h | h
          · exact absurd (h ▸ h0) (by rw [hbad]; exact fun hx => by cases hx)
          · exact h
        obtain ⟨cBad, hB1, hB2⟩ := ih c hcr hbad
        refine ⟨cBad, hB1, ?_⟩
        simp only [Talents.parse_priorities, h0, hB2]
        rfl
  · intro classes n p rest h
    simp [Talents.makeGoals, h]

/-- Claim C8 witness: the unknown code `z` and an entity missing from an
empty definition table. -/
theorem claim_C8_witness :
    (∃ cBad, Talents.step_map cBad = none ∧
        Talents.parse_priorities ['z'] =
          Except.error (Talents.TalentError.invalidPriority cBad)) ∧
      Talents.makeGoals [] [("Missing", ['a'])] =
        Except.error (Talents.TalentError.unknownEntity "Missing") :=
  ⟨claim_C8.1 ['z'] 'z' (by decide) (by decide),
    claim_C8.2 [] "Missing" ['a'] [] rfl⟩

/-- Claim C9: every simulated run terminates — `fuelNeeded asc` loop
iterations always suffice when `xp > 0` and `max_batch ≥ 1`, for any
requirement list, and hence the whole `num_runs`-fold simulation completes. -/
theorem claim_C9 (stp : Training.Step) (steps : Int) (rand : Nat → Nat)
    (asc : List Int) (numRuns level t : Nat)
    (hxp : 0 < stp.xp) (hsteps : 1 ≤ steps) :
    (Training.runAux stp steps rand (Training.fuelNeeded asc) asc level t).isSome ∧
      (Training.computeRuns stp steps rand (Training.fuelNeeded asc) numRuns
          asc t).isSome :=
  ⟨Training.runAux_total stp steps rand hxp hsteps (Training.fuelNeeded asc)
      asc level t (le_refl _),
    Training.computeRuns_total stp steps rand hxp hsteps asc numRuns t⟩

/-- Claim C9 witness: a concrete configuration (`xp = 180`, `chance = 2`,
`max_batch = 10`, requirements `[180, 468]`, 3 runs) terminates. -/
theorem claim_C9_witness :
    (Training.runAux ⟨180, 2⟩ 10 (fun _ => 37)
        (Training.fuelNeeded [180, 468]) [180, 468] 1 0).isSome ∧
      (Training.computeRuns ⟨180, 2⟩ 10 (fun _ => 37)
          (Training.fuelNeeded [180, 468]) 3 [180, 468] 0).isSome :=
  claim_C9 ⟨180, 2⟩ 10 (fun _ => 37) [180, 468] 3 1 0 (by decide) (by decide)

/-- Claim C10: each elimination round maps a non-empty path list to a
non-empty sublist of itself, and consequently the evaluator over the full
2^7 candidate space returns at least one path for any non-empty goal set
(over 7-branch entities). -/
theorem claim_C10 (goals : List Talents.Goal) (hg : goals ≠ [])
    (h7 : ∀ g ∈ goals, g.cls.branches.length = 7) :
    (∀ (vals : List Nat → Nat) (ps : List (List Nat)), ps ≠ [] →
        Talents.filterRound vals ps ≠ [] ∧
          List.Sublist (Talents.filterRound vals ps) ps) ∧
      Talents.evaluate goals Talents.allPaths ≠ [] := by
  constructor
  · intro vals ps hps
    exact ⟨Talents.filterRound_ne_nil vals ps hps,
      Talents.filterRound_sublist vals ps⟩
  · rw [Talents.evaluate_eq_runOps]
    exact Talents.runOps_ne_nil (Talents.opsOf goals) Talents.allPaths
      (Talents.binPaths_ne_nil 7)

/-- Claim C10 witness: the evaluator returns at least one path for the
concrete goal set over `clsA`. -/
theorem claim_C10_witness :
    Talents.evaluate [⟨clsA, [Talents.Step.attack]⟩] Talents.allPaths ≠ [] :=
  (claim_C10 [⟨clsA, [Talents.Step.attack]⟩] (List.cons_ne_nil _ _)
      (by decide)).2

section Examples

set_option maxRecDepth 4000 in
example : Talents.allPaths.length = 128 := by decide

example :
    Talents.count_path ⟨"X", Talents.tcZero, []⟩ [0] = none := by
  rfl

example :
    Training.ceilDiv 200 180 = 2 ∧ Training.ceilDiv (-1) 180 = 0 ∧
      Training.ceilDiv 0 180 = 0 ∧ Training.ceilDiv 180 180 = 1 := by
  decide

example :
    Training.computeRuns ⟨1, 100⟩ 1 (fun _ => 0) 10 1 [1] 0 = some (0, 1) := by
  decide

example :
    Training.computeRuns ⟨1, 100⟩ 1 (fun _ => 0) 10 2 [1, 1, 1, 1, 1, 1, 1] 0 =
      some (2, 14) := by
  decide

end Examples
